import Mathlib

/-!
# Verification of `ahp.py` (AHP multi-expert analysis platform)

Shallow embedding of the quantitative core of `src/ahp.py`:

* `calculate_ahp` (lines 14-34): priority weights, lambda_max, CI, CR.
* `geometric_mean_matrix` (lines 36-43): elementwise geometric mean.
* The module-level upload analysis loop (lines 119-199): per-sheet shape
  check, per-expert CR, admission filter, result/warning accumulation.

Numbers: the Python code computes with IEEE-754 doubles.  We idealise
finite float arithmetic as exact arithmetic in a linear ordered field `K`
(instantiated at `ℚ` for executable witnesses and at `ℝ` where the code
takes real powers).  Division by zero, which in numpy produces a
non-finite value (`inf`/`nan`) rather than a number, is modelled
explicitly by `fdiv`, returning `none` for a zero divisor; plain `/` is
used only where the surrounding development establishes the divisor is
nonzero.
-/

namespace AHP

/-- An `n × n` judgment matrix with entries in `K` (numpy 2-d array). -/
abbrev Mat (n : ℕ) (K : Type) := Fin n → Fin n → K

/-- IEEE-style division: a zero divisor yields a non-finite value
(`inf`/`nan` in numpy), modelled as `none`; otherwise the exact quotient. -/
def fdiv {K : Type} [DivisionRing K] [DecidableEq K] (a b : K) : Option K :=
  if b = 0 then none else some (a / b)

variable {K : Type} [LinearOrderedField K] [DecidableEq K] {n : ℕ}

/-- `col_sums = matrix.sum(axis=0)` (ahp.py line 18). -/
def colSums (M : Mat n K) (j : Fin n) : K := ∑ i, M i j

/-- `normalized_matrix = matrix / col_sums` (ahp.py line 20),
columnwise broadcast division. -/
def normalizedMatrix (M : Mat n K) (i j : Fin n) : K := M i j / colSums M j

/-- `weights = normalized_matrix.mean(axis=1)` (ahp.py line 22): row means. -/
def weights (M : Mat n K) (i : Fin n) : K :=
  (∑ j, normalizedMatrix M i j) / (n : K)

/-- `lambda_max = np.dot(col_sums, weights)` (ahp.py line 26). -/
def lambdaMax (M : Mat n K) : K := ∑ j, colSums M j * weights M j

/-- `ci = (lambda_max - n) / (n - 1)` (ahp.py line 27).  The divisor
`n - 1` is zero for a 1×1 matrix, in which case numpy produces a
non-finite value; hence the checked division. -/
def ci (M : Mat n K) : Option K := fdiv (lambdaMax M - (n : K)) ((n : K) - 1)

/-- `ri_table = {1:0, 2:0, ..., 15:1.59}; ri = ri_table.get(n, 1.49)`
(ahp.py lines 30-31).  Keys 1..15; every other order defaults to 1.49. -/
def riTable (K : Type) [DivisionRing K] : ℕ → K
  | 1 => 0
  | 2 => 0
  | 3 => 58 / 100
  | 4 => 90 / 100
  | 5 => 112 / 100
  | 6 => 124 / 100
  | 7 => 132 / 100
  | 8 => 141 / 100
  | 9 => 145 / 100
  | 10 => 149 / 100
  | 11 => 151 / 100
  | 12 => 148 / 100
  | 13 => 156 / 100
  | 14 => 157 / 100
  | 15 => 159 / 100
  | _ => 149 / 100

/-- `cr = ci / ri if n > 2 else 0` (ahp.py line 32).  For `n ≤ 2` the
branch returns the literal `0`, whatever `ci` is. -/
def cr (M : Mat n K) : Option K :=
  if 2 < n then (ci M).bind (fun c => fdiv c (riTable K n)) else some 0

/-- The triple `(weights, cr, ci)` returned by `calculate_ahp`. -/
structure AhpResult (n : ℕ) (K : Type) where
  weights : Fin n → K
  cr : Option K
  ci : Option K
  deriving DecidableEq

/-- `calculate_ahp(matrix)` (ahp.py lines 14-34). -/
def calculate_ahp (M : Mat n K) : AhpResult n K :=
  { weights := weights M, cr := cr M, ci := ci M }

/-- `geometric_mean_matrix(matrices)` (ahp.py lines 36-43): stack the
matrices, take the elementwise product along the expert axis
(`np.prod(stack, axis=0)`), then the elementwise `1/len(matrices)`-th
power (`np.power(prod, 1/len(matrices))`).  Real powers idealise
`np.power` with a float exponent; all inputs share the order `n`
(numpy stacking requires equal shapes). -/
noncomputable def geometric_mean_matrix {n : ℕ} (ms : List (Mat n ℝ)) : Mat n ℝ :=
  fun i j => ((ms.map (fun m => m i j)).prod) ^ ((1 : ℝ) / (ms.length : ℝ))

/-! ## The upload analysis loop (ahp.py lines 119-199)

Each worksheet is read with `header=None`, coerced to numeric, and the
all-NaN rows/columns dropped; `matrix = df_clean.values` is a
rectangular numpy array, modelled by `Block` below (`shape = (rows,
cols)`).  The loop keeps three accumulators: `valid_matrices`,
`expert_results` (one dict per processed sheet, holding the sheet name,
the CR, the pass verdict and the matrix itself), and the
`st.warning` messages for skipped sheets. -/

/-- The cleaned numeric block of one worksheet (`df_clean.values`):
a rectangular `rows × cols` array of numbers. -/
structure Block where
  rows : ℕ
  cols : ℕ
  entry : Fin rows → Fin cols → ℚ

/-- One worksheet of the uploaded workbook: its sheet name and its
cleaned numeric block. -/
structure Sheet where
  name : String
  block : Block

/-- Reading a square block as an `n × n` matrix (`n = rows = cols`). -/
def Block.toSquare (b : Block) (h : b.rows = b.cols) : Mat b.rows ℚ :=
  fun i j => b.entry i (Fin.cast h j)

/-- One row of `expert_results` (ahp.py lines 150-155): sheet name, CR,
pass verdict, and the very matrix that was fed to `calculate_ahp`.
(The display-only `round(cr, 4)` is omitted; admission uses the
unrounded value.) -/
structure ExpertResult where
  expert : String
  crValue : Option ℚ
  isPass : Bool
  matrix : Block

/-- The loop accumulators (`valid_matrices`, `expert_results`, and the
sheet names reported by `st.warning`). -/
structure UploadState where
  validMatrices : List Block
  expertResults : List ExpertResult
  warnings : List String

/-- `is_pass = cr < 0.1` (ahp.py line 148).  An IEEE comparison with a
non-finite `nan`/`inf` CR is `False`; `none < 0.1` is modelled as
`false` accordingly. -/
def passes (c : Option ℚ) : Bool :=
  match c with
  | some q => decide (q < 1 / 10)
  | none => false

/-- One iteration of the upload analysis loop (ahp.py lines 130-160):
if `rows > 0 and rows == cols`, run `calculate_ahp` directly on the
cleaned block, append the result row, and append the matrix to
`valid_matrices` when it passes; otherwise record a warning naming the
sheet. -/
def processSheet (st : UploadState) (s : Sheet) : UploadState :=
  if h : 0 < s.block.rows ∧ s.block.rows = s.block.cols then
    let r := calculate_ahp (s.block.toSquare h.2)
    let p := passes r.cr
    let st' : UploadState :=
      { st with expertResults :=
          st.expertResults ++ [⟨s.name, r.cr, p, s.block⟩] }
    if p then { st' with validMatrices := st'.validMatrices ++ [s.block] }
    else st'
  else
    { st with warnings := st.warnings ++ [s.name] }

/-- The whole upload analysis loop, starting from empty accumulators. -/
def processUpload (sheets : List Sheet) : UploadState :=
  sheets.foldl processSheet ⟨[], [], []⟩

/-- Modelled from the spec (§4.1 MatrixSanitizer), for contrast with the
code: diagonal forced to 1; a zero upper-triangle entry replaced by 1;
each lower-triangle entry overwritten with the reciprocal of the
mirrored (already repaired) upper-triangle entry, or 1 if that entry is
zero.  No such repair exists anywhere in `ahp.py`'s analysis path. -/
def sanitize_spec {n : ℕ} (M : Mat n ℚ) : Mat n ℚ :=
  fun i j =>
    if i = j then 1
    else if i < j then (if M i j = 0 then 1 else M i j)
    else
      let u := if M j i = 0 then 1 else M j i
      if u = 0 then 1 else 1 / u

/-! ## A state-passing rendition of `calculate_ahp` (for the frame claim)

Each local assignment of `calculate_ahp` (ahp.py lines 16-32) becomes an
update of one field of `CalcVars`; the `matrix` argument is only ever
read.  Every numpy operation used (`sum`, broadcast `/`, `mean`,
`np.dot`) allocates a fresh array or scalar — none writes into its
operand — so no step assigns to `matrix`. -/

/-- The local variables of `calculate_ahp` during a call on an `n × n`
matrix. -/
structure CalcVars (n : ℕ) where
  matrix : Mat n ℚ
  col_sums : Fin n → ℚ
  normalized_matrix : Mat n ℚ
  weights : Fin n → ℚ
  lambda_max : ℚ
  ci : Option ℚ
  cr : Option ℚ

/-- `col_sums = matrix.sum(axis=0)` (line 18). -/
def stepColSums {n : ℕ} (s : CalcVars n) : CalcVars n :=
  { s with col_sums := fun j => ∑ i, s.matrix i j }

/-- `normalized_matrix = matrix / col_sums` (line 20). -/
def stepNormalize {n : ℕ} (s : CalcVars n) : CalcVars n :=
  { s with normalized_matrix := fun i j => s.matrix i j / s.col_sums j }

/-- `weights = normalized_matrix.mean(axis=1)` (line 22). -/
def stepWeights {n : ℕ} (s : CalcVars n) : CalcVars n :=
  { s with weights := fun i => (∑ j, s.normalized_matrix i j) / (n : ℚ) }

/-- `lambda_max = np.dot(col_sums, weights)` (line 26). -/
def stepLambda {n : ℕ} (s : CalcVars n) : CalcVars n :=
  { s with lambda_max := ∑ j, s.col_sums j * s.weights j }

/-- `ci = (lambda_max - n) / (n - 1)` (line 27). -/
def stepCi {n : ℕ} (s : CalcVars n) : CalcVars n :=
  { s with ci := fdiv (s.lambda_max - (n : ℚ)) ((n : ℚ) - 1) }

/-- `cr = ci / ri if n > 2 else 0` (line 32). -/
def stepCr {n : ℕ} (s : CalcVars n) : CalcVars n :=
  { s with cr := if 2 < n then s.ci.bind (fun c => fdiv c (riTable ℚ n)) else some 0 }

/-- Running the body of `calculate_ahp` line by line on `M`, starting
with the other locals unset (zero-initialised). -/
def calculate_ahp_run {n : ℕ} (M : Mat n ℚ) : CalcVars n :=
  stepCr (stepCi (stepLambda (stepWeights (stepNormalize (stepColSums
    ⟨M, fun _ => 0, fun _ _ => 0, fun _ => 0, 0, none, none⟩)))))

/-! ## Helper lemmas -/

/-- Positive entries make every column sum positive. -/
theorem colSums_pos {K : Type} [LinearOrderedField K] {n : ℕ} (M : Mat n K)
    (hn : 0 < n) (hpos : ∀ i j, 0 < M i j) (j : Fin n) : 0 < colSums M j := by
  have : Nonempty (Fin n) := ⟨⟨0, hn⟩⟩
  exact Finset.sum_pos (fun i _ => hpos i j) Finset.univ_nonempty

/-- Orders outside the keys 1..15 of `ri_table` get the 1.49 default. -/
theorem riTable_default {K : Type} [DivisionRing K] {n : ℕ} (hn : 15 < n) :
    riTable K n = 149 / 100 := by
  obtain ⟨m, rfl⟩ : ∃ m, n = m + 16 := ⟨n - 16, by omega⟩
  rfl

/-- For orders above 2 every `ri_table` value (and the 1.49 default) is
positive. -/
theorem riTable_pos {K : Type} [LinearOrderedField K] {n : ℕ} (hn : 2 < n) :
    (0 : K) < riTable K n := by
  match n, hn with
  | 3, _ => norm_num [riTable]
  | 4, _ => norm_num [riTable]
  | 5, _ => norm_num [riTable]
  | 6, _ => norm_num [riTable]
  | 7, _ => norm_num [riTable]
  | 8, _ => norm_num [riTable]
  | 9, _ => norm_num [riTable]
  | 10, _ => norm_num [riTable]
  | 11, _ => norm_num [riTable]
  | 12, _ => norm_num [riTable]
  | 13, _ => norm_num [riTable]
  | 14, _ => norm_num [riTable]
  | 15, _ => norm_num [riTable]
  | (m + 16), _ => (rw [riTable_default (by omega)]; norm_num)

/-- Each normalized column sums to 1 when its column sum is nonzero. -/
theorem normalized_col_sum_one {K : Type} [LinearOrderedField K] {n : ℕ}
    (M : Mat n K) (j : Fin n) (hj : colSums M j ≠ 0) :
    (∑ i, normalizedMatrix M i j) = 1 := by
  unfold normalizedMatrix
  rw [← Finset.sum_div]
  exact div_self hj

/-- `ci` in terms of `n` and `lambda_max`: the exact quotient when the
divisor `n - 1` is nonzero, and a non-finite value for `n = 1`. -/
theorem ci_cases {K : Type} [LinearOrderedField K] [DecidableEq K] {n : ℕ}
    (M : Mat n K) :
    (1 < n → ci M = some ((lambdaMax M - (n : K)) / ((n : K) - 1))) ∧
    (n = 1 → ci M = none) := by
  constructor
  · intro h
    have hne : ((n : K) - 1) ≠ 0 :=
      sub_ne_zero.mpr (Nat.one_lt_cast.mpr h).ne'
    simp [ci, fdiv, hne]
  · rintro rfl
    simp [ci, fdiv]

/-! ## Claim theorems: `calculate_ahp` -/

/-- C2 (amended): for every square matrix of order `n`, the CI returned
by `calculate_ahp` equals `(lambda_max - n) / (n - 1)` when `n > 1`; for
`n = 1` the code still evaluates `(lambda_max - 1) / 0`, an IEEE
division by zero producing a non-finite value (modelled `none`), not 0. -/
theorem calculate_ahp_ci_formula {K : Type} [LinearOrderedField K] [DecidableEq K]
    {n : ℕ} (M : Mat n K) :
    (1 < n → (calculate_ahp M).ci
        = some ((lambdaMax M - (n : K)) / ((n : K) - 1))) ∧
    (n = 1 → (calculate_ahp M).ci = none) :=
  ci_cases M

theorem calculate_ahp_ci_formula_witness :
    (calculate_ahp (fun _ _ => (1 : ℚ) : Mat 3 ℚ)).ci
      = some ((lambdaMax (fun _ _ => (1 : ℚ) : Mat 3 ℚ) - (3 : ℚ)) / ((3 : ℚ) - 1)) ∧
    (calculate_ahp (fun _ _ => (5 : ℚ) : Mat 1 ℚ)).ci = none :=
  ⟨(calculate_ahp_ci_formula (fun _ _ => (1 : ℚ))).1 (by norm_num),
   (calculate_ahp_ci_formula (fun _ _ => (5 : ℚ))).2 rfl⟩

/-- C2 counterexample to the claim as stated: on the 1×1 matrix `[[5]]`
the code's CI is the non-finite result of dividing by `n - 1 = 0`
(modelled `none`), not the claimed 0. -/
theorem ci_one_by_one_counterexample :
    (calculate_ahp (fun _ _ => (5 : ℚ) : Mat 1 ℚ)).ci = none ∧
    (none : Option ℚ) ≠ some 0 := by
  constructor
  · simp [calculate_ahp, ci, fdiv]
  · simp

/-- C5: for a square matrix of positive order with positive entries
(hence positive column sums), the priority vector returned by
`calculate_ahp` is entrywise non-negative and sums to 1. -/
theorem calculate_ahp_weights_nonneg_sum_one {K : Type} [LinearOrderedField K]
    [DecidableEq K] {n : ℕ} (M : Mat n K) (hn : 0 < n)
    (hpos : ∀ i j, 0 < M i j) :
    (∀ i, 0 ≤ (calculate_ahp M).weights i) ∧
    (∑ i, (calculate_ahp M).weights i) = 1 := by
  have hs : ∀ j, 0 < colSums M j := colSums_pos M hn hpos
  have hncast : ((n : K)) ≠ 0 := Nat.cast_ne_zero.mpr hn.ne'
  constructor
  · intro i
    show 0 ≤ weights M i
    unfold weights
    refine div_nonneg (Finset.sum_nonneg fun j _ => ?_) (Nat.cast_nonneg n)
    exact div_nonneg (hpos i j).le (hs j).le
  · show (∑ i, weights M i) = 1
    unfold weights
    rw [← Finset.sum_div, Finset.sum_comm]
    have hone : ∀ j : Fin n, (∑ i, normalizedMatrix M i j) = 1 := fun j =>
      normalized_col_sum_one M j (hs j).ne'
    simp only [hone, Finset.sum_const, Finset.card_univ, Fintype.card_fin,
      nsmul_eq_mul, mul_one]
    exact div_self hncast

theorem calculate_ahp_weights_nonneg_sum_one_witness :
    (0 : ℕ) < 2 ∧
    (∑ i, (calculate_ahp (fun _ _ => (2 : ℚ) : Mat 2 ℚ)).weights i) = 1 ∧
    0 ≤ (calculate_ahp (fun _ _ => (2 : ℚ) : Mat 2 ℚ)).weights 0 :=
  ⟨by norm_num,
   (calculate_ahp_weights_nonneg_sum_one (fun _ _ => (2 : ℚ)) (by norm_num)
      (fun _ _ => by norm_num)).2,
   (calculate_ahp_weights_nonneg_sum_one (fun _ _ => (2 : ℚ)) (by norm_num)
      (fun _ _ => by norm_num)).1 0⟩

/-- C6: the CR returned by `calculate_ahp` is `CI / RI` for `n > 2` and
the literal 0 for `n ≤ 2`; `RI` is the `ri_table` entry for `n`, and
every order beyond the table (`n > 15`) falls back to 1.49. -/
theorem calculate_ahp_cr_formula {K : Type} [LinearOrderedField K] [DecidableEq K]
    {n : ℕ} (M : Mat n K) :
    (2 < n → (calculate_ahp M).cr
        = some ((lambdaMax M - (n : K)) / ((n : K) - 1) / riTable K n)) ∧
    (n ≤ 2 → (calculate_ahp M).cr = some 0) ∧
    (15 < n → riTable K n = 149 / 100) := by
  refine ⟨?_, ?_, fun h => riTable_default h⟩
  · intro h
    have hci := (ci_cases M).1 (by omega)
    have hri : riTable K n ≠ 0 := (riTable_pos h).ne'
    show cr M = _
    unfold cr
    rw [if_pos h, hci]
    simp [fdiv, hri]
  · intro h
    show cr M = some 0
    unfold cr
    rw [if_neg (by omega)]

theorem calculate_ahp_cr_formula_witness :
    (calculate_ahp (fun _ _ => (1 : ℚ) : Mat 3 ℚ)).cr
      = some ((lambdaMax (fun _ _ => (1 : ℚ) : Mat 3 ℚ) - (3 : ℚ)) / ((3 : ℚ) - 1)
          / riTable ℚ 3) ∧
    (calculate_ahp (fun _ _ => (7 : ℚ) : Mat 2 ℚ)).cr = some 0 ∧
    riTable ℚ 16 = 149 / 100 :=
  ⟨(calculate_ahp_cr_formula (fun _ _ => (1 : ℚ) : Mat 3 ℚ)).1 (by norm_num),
   (calculate_ahp_cr_formula (fun _ _ => (7 : ℚ) : Mat 2 ℚ)).2.1 (by norm_num),
   (calculate_ahp_cr_formula (fun _ _ => (1 : ℚ) : Mat 16 ℚ)).2.2 (by norm_num)⟩

/-! ## Helper lemmas: the upload analysis loop -/

/-- `is_pass` holds exactly for a finite CR strictly below 0.1. -/
theorem passes_iff (c : Option ℚ) :
    passes c = true ↔ ∃ q, c = some q ∧ q < 1 / 10 := by
  cases c <;> simp [passes]

/-- A list never equals itself extended by one element. -/
theorem ne_append_singleton {α : Type} (l : List α) (a : α) :
    l ≠ l ++ [a] := by
  intro h
  simpa using congrArg List.length h

/-- The loop body only appends to the accumulators: its effect on any
starting state is the effect on empty accumulators, appended. -/
theorem processSheet_decompose (st : UploadState) (s : Sheet) :
    (processSheet st s).validMatrices
      = st.validMatrices ++ (processSheet ⟨[], [], []⟩ s).validMatrices ∧
    (processSheet st s).expertResults
      = st.expertResults ++ (processSheet ⟨[], [], []⟩ s).expertResults ∧
    (processSheet st s).warnings
      = st.warnings ++ (processSheet ⟨[], [], []⟩ s).warnings := by
  unfold processSheet
  by_cases h : 0 < s.block.rows ∧ s.block.rows = s.block.cols
  · rw [dif_pos h, dif_pos h]
    dsimp only
    cases hp : passes (calculate_ahp (s.block.toSquare h.2)).cr <;> simp
  · rw [dif_neg h, dif_neg h]
    simp

/-- Folding the loop from any starting accumulators appends the run
from empty accumulators. -/
theorem foldl_decompose (sheets : List Sheet) :
    ∀ st : UploadState,
      (sheets.foldl processSheet st).validMatrices
        = st.validMatrices ++ (processUpload sheets).validMatrices ∧
      (sheets.foldl processSheet st).expertResults
        = st.expertResults ++ (processUpload sheets).expertResults ∧
      (sheets.foldl processSheet st).warnings
        = st.warnings ++ (processUpload sheets).warnings := by
  induction sheets with
  | nil => intro st; simp [processUpload]
  | cons s rest ih =>
      intro st
      have hcons : ∀ u : UploadState,
          (s :: rest).foldl processSheet u = rest.foldl processSheet (processSheet u s) :=
        fun u => rfl
      have hrun := ih (processSheet st s)
      have hempty := ih (processSheet ⟨[], [], []⟩ s)
      have hstep := processSheet_decompose st s
      refine ⟨?_, ?_, ?_⟩ <;>
        simp only [hcons, processUpload] at hrun hempty ⊢ <;>
        [rw [hrun.1, hstep.1, hempty.1, List.append_assoc];
         rw [hrun.2.1, hstep.2.1, hempty.2.1, List.append_assoc];
         rw [hrun.2.2, hstep.2.2, hempty.2.2, List.append_assoc]]

/-! ## Claim theorems: the upload analysis loop -/

/-- C4: a processed (square, non-empty) submission is appended to the
per-expert results — with its CR and pass verdict — whether or not it
passes, and its matrix joins `valid_matrices` exactly when its CR is
strictly below 0.1; a CR of exactly 0.1 is excluded. -/
theorem admission_iff_cr_lt_threshold (st : UploadState) (s : Sheet)
    (h : 0 < s.block.rows ∧ s.block.rows = s.block.cols) :
    (processSheet st s).expertResults
      = st.expertResults
        ++ [⟨s.name, (calculate_ahp (s.block.toSquare h.2)).cr,
             passes (calculate_ahp (s.block.toSquare h.2)).cr, s.block⟩] ∧
    ((processSheet st s).validMatrices = st.validMatrices ++ [s.block]
      ↔ ∃ q, (calculate_ahp (s.block.toSquare h.2)).cr = some q ∧ q < 1 / 10) ∧
    ((calculate_ahp (s.block.toSquare h.2)).cr = some (1 / 10)
      → (processSheet st s).validMatrices = st.validMatrices) := by
  unfold processSheet
  rw [dif_pos h]
  dsimp only
  cases hp : passes (calculate_ahp (s.block.toSquare h.2)).cr
  · refine ⟨by simp, ?_, by simp⟩
    simp only [Bool.false_eq_true, if_false]
    exact iff_of_false (fun he => ne_append_singleton _ _ he)
      (fun hq => by rw [(passes_iff _).mpr hq] at hp; exact Bool.true_eq_false.mp hp)
  · refine ⟨by simp, ?_, ?_⟩
    · rw [if_pos rfl]
      exact iff_of_true rfl ((passes_iff _).mp hp)
    · intro hq
      rw [hq] at hp
      exfalso
      simp [passes] at hp

theorem admission_iff_cr_lt_threshold_witness :
    ((0 : ℕ) < 3 ∧ (3 : ℕ) = 3) ∧
    ((processSheet ⟨[], [], []⟩ ⟨"expert1", ⟨3, 3, fun _ _ => 1⟩⟩).validMatrices
        = ([] : List Block) ++ [(⟨3, 3, fun _ _ => 1⟩ : Block)]
      ↔ ∃ q, (calculate_ahp ((⟨3, 3, fun _ _ => 1⟩ : Block).toSquare rfl)).cr = some q
          ∧ q < 1 / 10) :=
  ⟨⟨by norm_num, rfl⟩,
   (admission_iff_cr_lt_threshold ⟨[], [], []⟩ ⟨"expert1", ⟨3, 3, fun _ _ => 1⟩⟩
      ⟨by norm_num, rfl⟩).2.1⟩

/-- C1 (amended): the pipeline applies no repair at all — the matrix a
submission's CR is computed on, and the matrix stored with its result
row, is the cleaned block exactly as uploaded (diagonal, zeros and
lower triangle untouched). -/
theorem cr_computed_on_raw_block (st : UploadState) (s : Sheet)
    (h : 0 < s.block.rows ∧ s.block.rows = s.block.cols) :
    (processSheet st s).expertResults.map ExpertResult.matrix
      = st.expertResults.map ExpertResult.matrix ++ [s.block] ∧
    (processSheet st s).expertResults.map ExpertResult.crValue
      = st.expertResults.map ExpertResult.crValue
        ++ [(calculate_ahp (s.block.toSquare h.2)).cr] := by
  unfold processSheet
  rw [dif_pos h]
  dsimp only
  cases hp : passes (calculate_ahp (s.block.toSquare h.2)).cr <;> simp

theorem cr_computed_on_raw_block_witness :
    ((0 : ℕ) < 3 ∧ (3 : ℕ) = 3) ∧
    (processSheet ⟨[], [], []⟩ ⟨"expert1", ⟨3, 3, fun _ _ => 1⟩⟩).expertResults.map
        ExpertResult.matrix
      = ([] : List ExpertResult).map ExpertResult.matrix
          ++ [(⟨3, 3, fun _ _ => 1⟩ : Block)] :=
  ⟨⟨by norm_num, rfl⟩,
   (cr_computed_on_raw_block ⟨[], [], []⟩ ⟨"expert1", ⟨3, 3, fun _ _ => 1⟩⟩
      ⟨by norm_num, rfl⟩).1⟩

/-- C3 (amended): a sheet whose cleaned block is not square (or has no
rows at all) is skipped non-fatally — a warning naming the sheet is
recorded, no CR and no result row are produced for it — and the
remaining sheets are processed exactly as they would be on their own.
Square blocks of order 1 are NOT rejected (see the counterexample). -/
theorem nonsquare_sheet_skipped (s : Sheet) (rest : List Sheet)
    (h : ¬(0 < s.block.rows ∧ s.block.rows = s.block.cols)) :
    (processUpload (s :: rest)).validMatrices = (processUpload rest).validMatrices ∧
    (processUpload (s :: rest)).expertResults = (processUpload rest).expertResults ∧
    (processUpload (s :: rest)).warnings
      = s.name :: (processUpload rest).warnings := by
  have hstep : processSheet ⟨[], [], []⟩ s
      = ⟨[], [], [s.name]⟩ := by
    unfold processSheet
    rw [dif_neg h]
    rfl
  have hcons : processUpload (s :: rest)
      = rest.foldl processSheet (processSheet ⟨[], [], []⟩ s) := rfl
  have hdec := foldl_decompose rest (⟨[], [], [s.name]⟩ : UploadState)
  rw [hcons, hstep]
  exact ⟨hdec.1, hdec.2.1, by rw [hdec.2.2]; rfl⟩

theorem nonsquare_sheet_skipped_witness :
    ¬(0 < (1 : ℕ) ∧ (1 : ℕ) = 2) ∧
    (processUpload [⟨"expert1", ⟨1, 2, fun _ _ => 1⟩⟩]).warnings
      = "expert1" :: (processUpload []).warnings :=
  ⟨by norm_num,
   (nonsquare_sheet_skipped ⟨"expert1", ⟨1, 2, fun _ _ => 1⟩⟩ [] (by norm_num)).2.2⟩

/-- The 1×1 cleaned block `[[5]]` of the C3 counterexample. -/
def oneByOneBlock : Block := ⟨1, 1, fun _ _ => 5⟩

/-- C3 counterexample to the claim as stated: a square block of order
1 passes the code's `rows > 0 and rows == cols` test, so the submission
is not skipped: no warning is issued, its CR is computed (0, because
`cr = 0` for `n ≤ 2`), and it is even admitted to aggregation. -/
theorem one_by_one_accepted_counterexample :
    (processUpload [⟨"expert1", oneByOneBlock⟩]).warnings = [] ∧
    (processUpload [⟨"expert1", oneByOneBlock⟩]).expertResults.map
        ExpertResult.crValue = [some 0] ∧
    (processUpload [⟨"expert1", oneByOneBlock⟩]).expertResults.map
        ExpertResult.isPass = [true] ∧
    (processUpload [⟨"expert1", oneByOneBlock⟩]).validMatrices
      = [oneByOneBlock] := by
  have hrun : processUpload [⟨"expert1", oneByOneBlock⟩]
      = processSheet ⟨[], [], []⟩ ⟨"expert1", oneByOneBlock⟩ := rfl
  have hcr : (calculate_ahp (oneByOneBlock.toSquare rfl)).cr = some 0 := by
    simp [calculate_ahp, cr, oneByOneBlock]
  have hpass : passes (calculate_ahp (oneByOneBlock.toSquare rfl)).cr = true := by
    rw [hcr]
    simp [passes]
  rw [hrun]
  unfold processSheet
  rw [dif_pos ⟨Nat.one_pos, rfl⟩]
  dsimp only
  rw [hpass, if_pos rfl]
  refine ⟨rfl, ?_, ?_, rfl⟩
  · simp [hcr]
  · simp [hpass]

/-- The raw 3×3 matrix of the C1 counterexample, with a 0 in the strict
upper triangle at position (0,1). -/
def rawMatC1 : Mat 3 ℚ := ![![1, 0, 1], ![1, 1, 1], ![1, 1, 1]]

/-- The C1 counterexample's matrix as a cleaned worksheet block. -/
def rawBlockC1 : Block := ⟨3, 3, rawMatC1⟩

/-- C1 counterexample to the claim as stated: on a 3×3 submission with
a 0 at (0,1), the matrix the pipeline feeds to `calculate_ahp` (and
stores with the result row) still has 0 — not 1 — at (0,1): no
cell-by-cell repair happens before the CR is computed, and the CR the
code produces differs from the CR of the spec's repaired matrix. -/
theorem no_sanitize_counterexample :
    rawMatC1 0 1 = 0 ∧
    rawBlockC1.toSquare rfl = rawMatC1 ∧
    (processUpload [⟨"expert1", rawBlockC1⟩]).expertResults.map
        ExpertResult.matrix = [rawBlockC1] ∧
    (processUpload [⟨"expert1", rawBlockC1⟩]).expertResults.map
        ExpertResult.crValue = [(calculate_ahp rawMatC1).cr] ∧
    (calculate_ahp rawMatC1).cr ≠ (calculate_ahp (sanitize_spec rawMatC1)).cr := by
  have hts : rawBlockC1.toSquare rfl = rawMatC1 := rfl
  have hraw : (calculate_ahp rawMatC1).cr = some (-175 / 522) := by
    simp [calculate_ahp, cr, ci, fdiv, lambdaMax, colSums, weights,
      normalizedMatrix, riTable, rawMatC1, Fin.sum_univ_succ,
      Matrix.cons_val_zero, Matrix.cons_val_succ]
    norm_num
  have hsan : sanitize_spec rawMatC1 = (fun _ _ => (1 : ℚ)) := by
    funext i j
    fin_cases i <;> fin_cases j <;>
      simp [sanitize_spec, rawMatC1, Matrix.cons_val_zero, Matrix.cons_val_succ]
  have hones : (calculate_ahp (fun _ _ => (1 : ℚ) : Mat 3 ℚ)).cr = some 0 := by
    simp [calculate_ahp, cr, ci, fdiv, lambdaMax, colSums, weights,
      normalizedMatrix, riTable, Fin.sum_univ_succ]
    norm_num
  have hpass : passes (calculate_ahp (rawBlockC1.toSquare rfl)).cr = true := by
    rw [hts, hraw]
    simp [passes]
    norm_num
  have hrun : processUpload [⟨"expert1", rawBlockC1⟩]
      = processSheet ⟨[], [], []⟩ ⟨"expert1", rawBlockC1⟩ := rfl
  refine ⟨by simp [rawMatC1], hts, ?_, ?_, ?_⟩
  · rw [hrun]
    unfold processSheet
    rw [dif_pos ⟨by decide, rfl⟩]
    dsimp only
    rw [hpass, if_pos rfl]
    simp
  · rw [hrun]
    unfold processSheet
    rw [dif_pos ⟨by decide, rfl⟩]
    dsimp only
    rw [hpass, if_pos rfl]
    simp [hts]
  · rw [hraw, hsan, hones]
    norm_num

/-! ## Claim theorems: frame property of `calculate_ahp` -/

/-- C10: running the body of `calculate_ahp` line by line never writes
to `matrix` — the input array holds exactly its original entries after
the call — and the values it derives from the untouched input agree
with the functional reading of `calculate_ahp`. -/
theorem calculate_ahp_preserves_input {n : ℕ} (M : Mat n ℚ) :
    (calculate_ahp_run M).matrix = M ∧
    (calculate_ahp_run M).weights = (calculate_ahp M).weights ∧
    (calculate_ahp_run M).cr = (calculate_ahp M).cr ∧
    (calculate_ahp_run M).ci = (calculate_ahp M).ci :=
  ⟨rfl, rfl, rfl, rfl⟩

/-! ## Claim theorems: `geometric_mean_matrix` -/

/-- Mapping inversion through a list product, in a field. -/
theorem prod_map_inv {K : Type} [Field K] (l : List K) :
    (l.map fun x => x⁻¹).prod = l.prod⁻¹ := by
  induction l with
  | nil => simp
  | cons a t ih => simp [ih, mul_inv, mul_comm]

/-- A list of positive reals has a positive product. -/
theorem list_prod_pos (l : List ℝ) (h : ∀ x ∈ l, 0 < x) : 0 < l.prod := by
  induction l with
  | nil => simp
  | cons a t ih =>
      rw [List.prod_cons]
      exact mul_pos (h a (List.mem_cons_self a t))
        (ih fun x hx => h x (List.mem_cons_of_mem a hx))

/-- C7: the elementwise geometric mean of a non-empty collection of
equal-shape positive matrices is invariant under permuting the
collection: the product along the expert axis and the count `k` are
both permutation-invariant. -/
theorem geometric_mean_perm_invariant {n : ℕ} (ms ms' : List (Mat n ℝ))
    (hne : ms ≠ []) (hpos : ∀ m ∈ ms, ∀ i j, 0 < m i j)
    (hp : ms.Perm ms') :
    geometric_mean_matrix ms = geometric_mean_matrix ms' := by
  funext i j
  unfold geometric_mean_matrix
  rw [(hp.map fun m => m i j).prod_eq, hp.length_eq]

theorem geometric_mean_perm_invariant_witness :
    ([fun _ _ => (2 : ℝ), fun _ _ => (3 : ℝ)] : List (Mat 1 ℝ)) ≠ [] ∧
    geometric_mean_matrix ([fun _ _ => (2 : ℝ), fun _ _ => (3 : ℝ)] : List (Mat 1 ℝ))
      = geometric_mean_matrix
          ([fun _ _ => (3 : ℝ), fun _ _ => (2 : ℝ)] : List (Mat 1 ℝ)) :=
  ⟨by simp,
   geometric_mean_perm_invariant _ _ (by simp)
     (by
       intro m hm i j
       rcases List.mem_cons.mp hm with h | h
       · rw [h]; norm_num
       · rw [List.mem_singleton.mp h]; norm_num)
     (List.Perm.swap (fun _ _ => (3 : ℝ)) (fun _ _ => (2 : ℝ)) [])⟩

/-- C8: if every matrix in a non-empty equal-shape collection is
reciprocal (`m[j][i] = 1/m[i][j]`, positive entries), the elementwise
geometric mean is reciprocal as well. -/
theorem geometric_mean_preserves_reciprocal {n : ℕ} (ms : List (Mat n ℝ))
    (hne : ms ≠ []) (hpos : ∀ m ∈ ms, ∀ i j, 0 < m i j)
    (hrec : ∀ m ∈ ms, ∀ i j, m j i = 1 / m i j) :
    ∀ i j, geometric_mean_matrix ms j i = 1 / geometric_mean_matrix ms i j := by
  intro i j
  unfold geometric_mean_matrix
  have hmap : (ms.map fun m => m j i) = ms.map fun m => (m i j)⁻¹ :=
    List.map_congr_left fun m hm => by rw [hrec m hm i j, one_div]
  have hppos : 0 < (ms.map fun m => m i j).prod :=
    list_prod_pos _ (by
      intro x hx
      rcases List.mem_map.mp hx with ⟨m, hm, rfl⟩
      exact hpos m hm i j)
  rw [hmap, show (ms.map fun m => (m i j)⁻¹) = (ms.map fun m => m i j).map fun x => x⁻¹
        from (List.map_map _ _ _).symm,
    prod_map_inv, Real.inv_rpow hppos.le]
  exact (one_div _).symm

theorem geometric_mean_preserves_reciprocal_witness :
    ([![![1, 2], ![2⁻¹, 1]]] : List (Mat 2 ℝ)) ≠ [] ∧
    geometric_mean_matrix ([![![1, 2], ![2⁻¹, 1]]] : List (Mat 2 ℝ)) 1 0
      = 1 / geometric_mean_matrix ([![![1, 2], ![2⁻¹, 1]]] : List (Mat 2 ℝ)) 0 1 :=
  ⟨by simp,
   geometric_mean_preserves_reciprocal ([![![1, 2], ![2⁻¹, 1]]] : List (Mat 2 ℝ))
     (by simp)
     (by
       intro m hm i j
       rw [List.mem_singleton.mp hm]
       fin_cases i <;> fin_cases j <;> norm_num)
     (by
       intro m hm i j
       rw [List.mem_singleton.mp hm]
       fin_cases i <;> fin_cases j <;> norm_num)
     0 1⟩

/-- C9: two experts submitting the same positive reciprocal matrix:
the geometric mean of `[A, A]` is `A` itself (each cell is
`(a·a)^(1/2) = a`), and therefore `calculate_ahp` returns the same CR
on the aggregate as on the common matrix. -/
theorem geometric_mean_identical_pair {n : ℕ} (A : Mat n ℝ)
    (hpos : ∀ i j, 0 < A i j) (hrec : ∀ i j, A j i = 1 / A i j) :
    geometric_mean_matrix [A, A] = A ∧
    (calculate_ahp (geometric_mean_matrix [A, A])).cr = (calculate_ahp A).cr := by
  have hgeo : geometric_mean_matrix [A, A] = A := by
    funext i j
    unfold geometric_mean_matrix
    have h2 : ([A, A].map fun m => m i j).prod = A i j ^ (2 : ℕ) := by
      simp [pow_two]
    rw [h2]
    have hlen : (([A, A] : List (Mat n ℝ)).length : ℝ) = ((2 : ℕ) : ℝ) := by norm_num
    rw [hlen, one_div, Real.pow_rpow_inv_natCast (hpos i j).le (by norm_num)]
  exact ⟨hgeo, by rw [hgeo]⟩

theorem geometric_mean_identical_pair_witness :
    geometric_mean_matrix [(![![1, 2], ![2⁻¹, 1]] : Mat 2 ℝ), ![![1, 2], ![2⁻¹, 1]]]
        = ![![1, 2], ![2⁻¹, 1]] ∧
    (calculate_ahp (geometric_mean_matrix
        [(![![1, 2], ![2⁻¹, 1]] : Mat 2 ℝ), ![![1, 2], ![2⁻¹, 1]]])).cr
      = (calculate_ahp (![![1, 2], ![2⁻¹, 1]] : Mat 2 ℝ)).cr :=
  geometric_mean_identical_pair _
    (by intro i j; fin_cases i <;> fin_cases j <;> norm_num)
    (by intro i j; fin_cases i <;> fin_cases j <;> norm_num)

end AHP
